import Mathlib

/-!
Shallow embedding of the classical post-processing core of
`src/ocropus4inf/ocrinf.py` (word-region segmentation step 7, bounding-box
extraction and merging, crop validation, line assembly, reading order,
topological sort, CTC peak decoding, label spreading), together with
theorems settling the frozen claims about it.

Python floats appearing in thresholds (0.3, 0.5, 0.7, 1e-4) are modelled as
the exact rationals they denote; machine integers are unbounded (as Python
ints are).
-/

attribute [local semireducible] Rat.add Rat.mul Rat.sub Rat.inv

namespace Ocrinf

/-- Python `int(q)` on a rational: truncation toward zero.  The denominator of
a normalized `Rat` is positive, so `Int.tdiv` (T-division) truncates toward 0. -/
def pyTrunc (q : ℚ) : Int := Int.tdiv q.num (q.den : Int)

/-- Bounding box with the fields `t`, `l`, `b`, `r` of the Python dicts built
by `compute_bboxes`. -/
structure BBox where
  t : Int
  l : Int
  b : Int
  r : Int
deriving DecidableEq

/-- Embeds `bbox_height` (ocrinf.py line 396). -/
def bbox_height (a : BBox) : Int := a.b - a.t

/-- Embeds `bbox_width` (ocrinf.py line 399). -/
def bbox_width (a : BBox) : Int := a.r - a.l

/-- Embeds `bbox_center` (ocrinf.py line 393): `((l+r)/2, (t+b)/2)`. -/
def bbox_center (a : BBox) : ℚ × ℚ :=
  (((a.l : ℚ) + (a.r : ℚ)) / 2, ((a.t : ℚ) + (a.b : ℚ)) / 2)

/-- Embeds `bbox_overlap` (ocrinf.py line 402). -/
def bbox_overlap (a b : BBox) : Int :=
  max 0 (min a.b b.b - max a.t b.t) * max 0 (min a.r b.r - max a.l b.l)

/-- Embeds `bbox_area` (ocrinf.py line 407). -/
def bbox_area (a : BBox) : Int := (a.b - a.t) * (a.r - a.l)

/-- Embeds `bbox_overlap_frac` (ocrinf.py line 410): overlap divided by the
smaller area.  (Python would raise ZeroDivisionError on a zero minimum area;
field semantics give 0, which never arises for the boxes considered here.) -/
def bbox_overlap_frac (a b : BBox) : ℚ :=
  (bbox_overlap a b : ℚ) / ((min (bbox_area a) (bbox_area b) : Int) : ℚ)

/-- Embeds `bbox_same_line` (ocrinf.py line 414): with `delta = 0.3*height(a)`,
tests `b.t > a.t - delta and b.b < a.b + delta`.  The computed center of `b`
is dead code in the source; the source also asserts `a.t <= a.b`, which holds
for every box reaching this function. -/
def bbox_same_line (a b : BBox) : Bool :=
  decide ((b.t : ℚ) > (a.t : ℚ) - (bbox_height a : ℚ) * (3/10)) &&
  decide ((b.b : ℚ) < (a.b : ℚ) + (bbox_height a : ℚ) * (3/10))

/-- Embeds `bbox_merge` (ocrinf.py line 421): the union rectangle. -/
def bbox_merge (a b : BBox) : BBox :=
  ⟨min a.t b.t, min a.l b.l, max a.b b.b, max a.r b.r⟩

/-- Embeds `bbox_all` (ocrinf.py line 385): componentwise min/max over a list
of boxes.  The source raises on an empty list; every call site guards
nonemptiness, and the empty case here returns a junk box. -/
def bbox_all (l : List BBox) : BBox :=
  match l with
  | [] => ⟨0, 0, 0, 0⟩
  | x :: xs =>
      ⟨(xs.map BBox.t).foldl min x.t, (xs.map BBox.l).foldl min x.l,
       (xs.map BBox.b).foldl max x.b, (xs.map BBox.r).foldl max x.r⟩

/-- The merge test of `merge_overlapping` (ocrinf.py lines 437-439) for the
ordered pair (i, j) holding boxes `bi`, `bj`:
`width(bj) < height(bi)` and `bbox_same_line(bj, bi)` and
`bbox_overlap_frac(bi, bj) > 0.5`. -/
def mergeCond (bi bj : BBox) : Bool :=
  decide (bbox_width bj < bbox_height bi) &&
  (bbox_same_line bj bi && decide (bbox_overlap_frac bi bj > 1/2))

/-- One iteration of the double loop of `merge_overlapping` at indices
(i, j): skip when `i == j` or either slot is `None`; otherwise, when
`mergeCond` holds, store the union at `i` and `None` at `j`. -/
def mergeStep (bs : List (Option BBox)) (i j : Nat) : List (Option BBox) :=
  if i = j then bs
  else
    match bs.getD i none, bs.getD j none with
    | some bi, some bj =>
        if mergeCond bi bj then (bs.set i (some (bbox_merge bi bj))).set j none
        else bs
    | _, _ => bs

/-- Embeds `merge_overlapping` (ocrinf.py lines 431-442): one pass of the
double loop `for i in range(n): for j in range(n)` over the list of boxes
(deleted boxes become `None`), then drop the `None`s.  The unused parameters
`threshold` and `rthreshold` of the source are omitted. -/
def merge_overlapping (l : List BBox) : List BBox :=
  let n := l.length
  let final := (List.range n).foldl
    (fun bs i => (List.range n).foldl (fun bs2 j => mergeStep bs2 i j) bs)
    (l.map some)
  final.filterMap id

/-- The merge rule of claim C4, written from the claim's words (not from the
source): j's width smaller than i's height, j's vertical center within i's
height band extended by 0.3 times i's height on both sides, and overlap area
over the smaller area above one half. -/
def claimRuleC4 (bi bj : BBox) : Prop :=
  bbox_width bj < bbox_height bi ∧
  (bi.t : ℚ) - (bbox_height bi : ℚ) * (3/10) ≤ (bbox_center bj).2 ∧
  (bbox_center bj).2 ≤ (bi.b : ℚ) + (bbox_height bi : ℚ) * (3/10) ∧
  bbox_overlap_frac bi bj > 1/2

/-- Claim C4 is false on the code: for i = (t 0, l 0, b 100, r 10) and
j = (t 40, l 0, b 46, r 5) the claim's rule qualifies the pair (i, j), yet
`merge_overlapping` merges nothing: the source tests whether box i lies within
box j's extended band (`bbox_same_line(bboxes[j], bboxes[i])`), not whether
j's center lies within i's band. -/
theorem C4_counterexample :
    claimRuleC4 ⟨0, 0, 100, 10⟩ ⟨40, 0, 46, 5⟩ ∧
      merge_overlapping [⟨0, 0, 100, 10⟩, ⟨40, 0, 46, 5⟩] =
        [⟨0, 0, 100, 10⟩, ⟨40, 0, 46, 5⟩] := by
  constructor
  · refine ⟨by decide, by decide, by decide, by decide⟩
  · decide

/-- Amended claim C4: in the single pass of `merge_overlapping` over ordered
pairs (i, j), box j is merged into box i exactly when j's width is smaller
than i's height, i's top is above j's top minus 0.3 times j's height, i's
bottom is below j's bottom plus 0.3 times j's height (that is, box i lies
within box j's extended vertical band — not j's center within i's band), and
the overlap area divided by the smaller of the two areas exceeds 0.5. -/
theorem C4_amended (bi bj : BBox) :
    mergeCond bi bj = true ↔
      (bj.r - bj.l < bi.b - bi.t ∧
        (bi.t : ℚ) > (bj.t : ℚ) - ((bj.b : ℚ) - (bj.t : ℚ)) * (3/10) ∧
        (bi.b : ℚ) < (bj.b : ℚ) + ((bj.b : ℚ) - (bj.t : ℚ)) * (3/10) ∧
        ((max 0 (min bi.b bj.b - max bi.t bj.t) *
            max 0 (min bi.r bj.r - max bi.l bj.l) : Int) : ℚ) /
            ((min ((bi.b - bi.t) * (bi.r - bi.l)) ((bj.b - bj.t) * (bj.r - bj.l)) :
              Int) : ℚ) > 1/2) := by
  simp only [mergeCond, bbox_same_line, bbox_width, bbox_height,
    bbox_overlap_frac, bbox_overlap, bbox_area, Bool.and_eq_true,
    decide_eq_true_eq]
  constructor
  · rintro ⟨h1, ⟨h2, h3⟩, h4⟩
    refine ⟨h1, ?_, ?_, h4⟩ <;> push_cast at h2 h3 ⊢ <;> linarith
  · rintro ⟨h1, h2, h3, h4⟩
    refine ⟨h1, ⟨?_, ?_⟩, h4⟩ <;> push_cast at h2 h3 ⊢ <;> linarith

/-- Claim C6 is false on the code: `merge_overlapping` makes a single pass and
is not idempotent.  On the three boxes below, one application merges only the
third box into the first; a second application merges the remaining two. -/
theorem C6_counterexample :
    merge_overlapping [⟨0, 0, 40, 12⟩, ⟨5, 14, 35, 28⟩, ⟨5, 0, 35, 30⟩] =
        [⟨0, 0, 40, 30⟩, ⟨5, 14, 35, 28⟩] ∧
      merge_overlapping [⟨0, 0, 40, 30⟩, ⟨5, 14, 35, 28⟩] = [⟨0, 0, 40, 30⟩] ∧
      merge_overlapping
          (merge_overlapping [⟨0, 0, 40, 12⟩, ⟨5, 14, 35, 28⟩, ⟨5, 0, 35, 30⟩]) ≠
        merge_overlapping [⟨0, 0, 40, 12⟩, ⟨5, 14, 35, 28⟩, ⟨5, 0, 35, 30⟩] := by
  refine ⟨by decide, by decide, by decide⟩

theorem merge_overlapping_nil : merge_overlapping [] = [] := rfl

theorem merge_overlapping_single (a : BBox) : merge_overlapping [a] = [a] := rfl

theorem merge_overlapping_pair (a b : BBox) :
    merge_overlapping [a, b] =
      if mergeCond a b then [bbox_merge a b]
      else if mergeCond b a then [bbox_merge b a]
      else [a, b] := by
  by_cases h1 : mergeCond a b <;> by_cases h2 : mergeCond b a <;>
    simp [merge_overlapping, mergeStep, h1, h2, List.range_succ]

/-- Amended claim C6: `merge_overlapping` is idempotent on lists of at most
two boxes; with three boxes a single pass need not reach a fixpoint and a
second application can merge further (see the three-box counterexample). -/
theorem C6_amended (l : List BBox) (h : l.length ≤ 2) :
    merge_overlapping (merge_overlapping l) = merge_overlapping l := by
  match l with
  | [] => rfl
  | [a] => rfl
  | [a, b] =>
      rw [merge_overlapping_pair a b]
      by_cases h1 : mergeCond a b
      · simp [h1, merge_overlapping_single]
      · by_cases h2 : mergeCond b a
        · simp [h1, h2, merge_overlapping_single]
        · simp [h1, h2, merge_overlapping_pair a b]
  | a :: b :: c :: t => simp at h

/-- Witness for the amended claim C6 at a concrete two-box input. -/
theorem C6_amended_witness :
    merge_overlapping (merge_overlapping [(⟨0, 0, 40, 30⟩ : BBox), ⟨5, 14, 35, 28⟩]) =
      merge_overlapping [(⟨0, 0, 40, 30⟩ : BBox), ⟨5, 14, 35, 28⟩] :=
  C6_amended [⟨0, 0, 40, 30⟩, ⟨5, 14, 35, 28⟩] (by decide)

/-- A label map (`wordmap` in the source): a height×width integer array,
modelled as a list of rows; 0 is background. -/
abbrev LabelMap := List (List Nat)

/-- Value of a label map at row `y`, column `x` (0 outside the array). -/
def labelAt (m : LabelMap) (y x : Nat) : Nat := (m.getD y []).getD x 0

/-- All coordinates (y, x) carrying label `k`, in raster order. -/
def pixelsWith (m : LabelMap) (k : Nat) : List (Nat × Nat) :=
  (List.range m.length).bind fun y =>
    ((List.range (m.getD y []).length).filter fun x =>
      decide (labelAt m y x = k)).map fun x => (y, x)

/-- The largest label occurring in the map (`wordmap.max()`). -/
def maxLabel (m : LabelMap) : Nat := (m.map fun row => row.foldl max 0).foldl max 0

/-- A pair of Python slices `(slice(ystart, ystop), slice(xstart, xstop))` as
returned by `scipy.ndimage.find_objects`. -/
structure PySlice where
  ystart : Nat
  ystop : Nat
  xstart : Nat
  xstop : Nat
deriving DecidableEq

/-- Minimal enclosing slice pair of label `k` (junk value when `k` is absent;
callers guard on presence). -/
def sliceOfLabel (m : LabelMap) (k : Nat) : PySlice :=
  match pixelsWith m k with
  | [] => ⟨0, 0, 0, 0⟩
  | p :: ps =>
      ⟨(ps.map Prod.fst).foldl min p.1, (ps.map Prod.fst).foldl max p.1 + 1,
       (ps.map Prod.snd).foldl min p.2, (ps.map Prod.snd).foldl max p.2 + 1⟩

/-- Entry of `scipy.ndimage.find_objects` for label `k`: the minimal slice
pair when the label occurs, `None` otherwise. -/
def findObject (m : LabelMap) (k : Nat) : Option PySlice :=
  if (pixelsWith m k).isEmpty then none else some (sliceOfLabel m k)

/-- Embeds `ndi.find_objects(wordmap)`: one entry for each label 1..max. -/
def find_objects (m : LabelMap) : List (Option PySlice) :=
  (List.range' 1 (maxLabel m)).map (findObject m)

/-- Embeds `compute_slices` (ocrinf.py lines 365-368): the non-`None` entries
of `find_objects`, in label order. -/
def compute_slices (m : LabelMap) : List PySlice :=
  (find_objects m).filterMap id

/-- The distinct nonzero labels present in the map, ascending. -/
def presentLabels (m : LabelMap) : List Nat :=
  (List.range' 1 (maxLabel m)).filter fun k => !(pixelsWith m k).isEmpty

/-- One side's padding amount, `max(pad_side, int(padr_side * h))` with `h`
the slice height (ocrinf.py lines 379-382). -/
def padAmt (p : Int) (r : ℚ) (h : Int) : Int := max p (pyTrunc (r * (h : ℚ)))

/-- The box built by `compute_bboxes` from one slice pair (ocrinf.py lines
377-383): `h = ys.stop - ys.start`; each side is padded by
`max(pad_side, int(padr_side * h))`; top and left are clamped at 0, bottom
and right are not clamped.  `pad` and `padr` are the four-tuples the source
builds from its `pad` and `padr` arguments. -/
def boxOfSlice (pad : Int × Int × Int × Int) (padr : ℚ × ℚ × ℚ × ℚ)
    (s : PySlice) : BBox :=
  let h : Int := (s.ystop : Int) - (s.ystart : Int)
  ⟨max ((s.ystart : Int) - padAmt pad.1 padr.1 h) 0,
   max ((s.xstart : Int) - padAmt pad.2.1 padr.2.1 h) 0,
   (s.ystop : Int) + padAmt pad.2.2.1 padr.2.2.1 h,
   (s.xstop : Int) + padAmt pad.2.2.2 padr.2.2.2 h⟩

theorem padAmt_nonneg (p : Int) (r : ℚ) (h : Int) (hp : 0 ≤ p) :
    0 ≤ padAmt p r h := le_trans hp (le_max_left _ _)

/-- Embeds `compute_bboxes` (ocrinf.py lines 371-383). -/
def compute_bboxes (m : LabelMap) (pad : Int × Int × Int × Int)
    (padr : ℚ × ℚ × ℚ × ℚ) : List BBox :=
  (compute_slices m).map (boxOfSlice pad padr)

theorem foldl_min_le_init (l : List Nat) (a : Nat) : l.foldl min a ≤ a := by
  induction l generalizing a with
  | nil => exact le_refl a
  | cons x xs ih => exact le_trans (ih (min a x)) (min_le_left a x)

theorem le_foldl_max_init (l : List Nat) (a : Nat) : a ≤ l.foldl max a := by
  induction l generalizing a with
  | nil => exact le_refl a
  | cons x xs ih => exact le_trans (le_max_left a x) (ih (max a x))

theorem foldl_min_le_mem (l : List Nat) (a x : Nat) :
    x ∈ l → l.foldl min a ≤ x := by
  induction l generalizing a with
  | nil => intro hx; cases hx
  | cons y ys ih =>
      intro hx
      cases hx with
      | head => exact le_trans (foldl_min_le_init ys (min a x)) (min_le_right a x)
      | tail _ h => exact ih (min a y) h

theorem mem_le_foldl_max (l : List Nat) (a x : Nat) :
    x ∈ l → x ≤ l.foldl max a := by
  induction l generalizing a with
  | nil => intro hx; cases hx
  | cons y ys ih =>
      intro hx
      cases hx with
      | head => exact le_trans (le_max_right a x) (le_foldl_max_init ys (max a x))
      | tail _ h => exact ih (max a y) h

theorem filterMap_if_eq_map_filter {α β : Type} (f : α → β) (p : α → Bool)
    (l : List α) :
    l.filterMap (fun a => if p a then some (f a) else none) =
      (l.filter p).map f := by
  induction l with
  | nil => rfl
  | cons x xs ih =>
      by_cases h : p x <;> simp [List.filterMap_cons, List.filter_cons, h, ih]

theorem compute_slices_eq (m : LabelMap) :
    compute_slices m = (presentLabels m).map (sliceOfLabel m) := by
  have h : compute_slices m =
      (List.range' 1 (maxLabel m)).filterMap (findObject m) := by
    simp [compute_slices, find_objects, List.filterMap_map]
  rw [h]
  have h2 : ∀ k, findObject m k =
      if !(pixelsWith m k).isEmpty then some (sliceOfLabel m k) else none := by
    intro k
    by_cases hk : (pixelsWith m k).isEmpty <;> simp [findObject, hk]
  calc (List.range' 1 (maxLabel m)).filterMap (findObject m)
      = (List.range' 1 (maxLabel m)).filterMap
          (fun k => if !(pixelsWith m k).isEmpty then some (sliceOfLabel m k)
            else none) := by
        exact List.filterMap_congr (fun k _ => h2 k)
    _ = (presentLabels m).map (sliceOfLabel m) :=
        filterMap_if_eq_map_filter (sliceOfLabel m)
          (fun k => !(pixelsWith m k).isEmpty) (List.range' 1 (maxLabel m))

theorem mem_pixelsWith (m : LabelMap) (k y x : Nat) (hk : k ≠ 0)
    (h : labelAt m y x = k) : (y, x) ∈ pixelsWith m k := by
  have hy : y < m.length := by
    by_contra hy
    apply hk
    rw [← h]
    unfold labelAt
    rw [List.getD_eq_default m [] (le_of_not_lt hy)]
    simp
  have hx : x < (m.getD y []).length := by
    by_contra hx
    apply hk
    rw [← h]
    unfold labelAt
    rw [List.getD_eq_default (m.getD y []) 0 (le_of_not_lt hx)]
  simp only [pixelsWith, List.mem_bind]
  refine ⟨y, by simpa using hy, ?_⟩
  simp only [List.mem_map, List.mem_filter, List.mem_range]
  exact ⟨x, ⟨hx, by simp [h]⟩, rfl⟩

theorem sliceOfLabel_bounds (m : LabelMap) (k y x : Nat)
    (hmem : (y, x) ∈ pixelsWith m k) :
    (sliceOfLabel m k).ystart ≤ y ∧ y < (sliceOfLabel m k).ystop ∧
      (sliceOfLabel m k).xstart ≤ x ∧ x < (sliceOfLabel m k).xstop := by
  rcases hp : pixelsWith m k with _ | ⟨p, ps⟩
  · rw [hp] at hmem; cases hmem
  · rw [hp] at hmem
    simp only [sliceOfLabel, hp]
    cases hmem with
    | head =>
        refine ⟨foldl_min_le_init _ _, ?_, foldl_min_le_init _ _, ?_⟩
        · exact Nat.lt_succ_of_le (le_foldl_max_init _ _)
        · exact Nat.lt_succ_of_le (le_foldl_max_init _ _)
    | tail _ hmem2 =>
        refine ⟨?_, ?_, ?_, ?_⟩
        · exact foldl_min_le_mem _ _ _ (List.mem_map_of_mem Prod.fst hmem2)
        · exact Nat.lt_succ_of_le
            (mem_le_foldl_max _ _ _ (List.mem_map_of_mem Prod.fst hmem2))
        · exact foldl_min_le_mem _ _ _ (List.mem_map_of_mem Prod.snd hmem2)
        · exact Nat.lt_succ_of_le
            (mem_le_foldl_max _ _ _ (List.mem_map_of_mem Prod.snd hmem2))

theorem sliceOfLabel_wf (m : LabelMap) (k : Nat) :
    (sliceOfLabel m k).ystart ≤ (sliceOfLabel m k).ystop ∧
      (sliceOfLabel m k).xstart ≤ (sliceOfLabel m k).xstop := by
  rcases hp : pixelsWith m k with _ | ⟨p, ps⟩ <;> simp only [sliceOfLabel, hp]
  · exact ⟨le_refl 0, le_refl 0⟩
  · constructor
    · exact le_trans (foldl_min_le_init _ _)
        (Nat.le_succ_of_le (le_foldl_max_init _ _))
    · exact le_trans (foldl_min_le_init _ _)
        (Nat.le_succ_of_le (le_foldl_max_init _ _))

theorem boxOfSlice_grows (pad : Int × Int × Int × Int) (padr : ℚ × ℚ × ℚ × ℚ)
    (s : PySlice) (h0 : 0 ≤ pad.1) (h1 : 0 ≤ pad.2.1) (h2 : 0 ≤ pad.2.2.1)
    (h3 : 0 ≤ pad.2.2.2) :
    0 ≤ (boxOfSlice pad padr s).t ∧
      (boxOfSlice pad padr s).t ≤ (s.ystart : Int) ∧
      (s.ystop : Int) ≤ (boxOfSlice pad padr s).b ∧
      0 ≤ (boxOfSlice pad padr s).l ∧
      (boxOfSlice pad padr s).l ≤ (s.xstart : Int) ∧
      (s.xstop : Int) ≤ (boxOfSlice pad padr s).r := by
  have g0 := padAmt_nonneg pad.1 padr.1 ((s.ystop : Int) - (s.ystart : Int)) h0
  have g1 := padAmt_nonneg pad.2.1 padr.2.1 ((s.ystop : Int) - (s.ystart : Int)) h1
  have g2 := padAmt_nonneg pad.2.2.1 padr.2.2.1 ((s.ystop : Int) - (s.ystart : Int)) h2
  have g3 := padAmt_nonneg pad.2.2.2 padr.2.2.2 ((s.ystop : Int) - (s.ystart : Int)) h3
  have hys : (0 : Int) ≤ (s.ystart : Int) := Int.ofNat_nonneg s.ystart
  have hxs : (0 : Int) ≤ (s.xstart : Int) := Int.ofNat_nonneg s.xstart
  unfold boxOfSlice
  dsimp only
  refine ⟨le_max_right _ _, max_le (by omega) hys, by omega,
    le_max_right _ _, max_le (by omega) hxs, by omega⟩

/-- Claim C3 is false on the code: with the source's default padding
(`pad=10`), the single-pixel label map `[[1]]` (height 1, width 1) yields the
box (t 0, l 0, b 11, r 11), whose bottom and right exceed the array extents:
`compute_bboxes` clamps top and left at 0 but never clips bottom or right. -/
theorem C3_counterexample :
    compute_bboxes [[1]] (10, 10, 10, 10) (0, 0, 0, 0) = [⟨0, 0, 11, 11⟩] ∧
      ([[1]] : LabelMap).length = 1 ∧ ¬((11 : Int) ≤ 1) := by
  refine ⟨by decide, rfl, by decide⟩

/-- Amended claim C3: for every label map and nonnegative padding parameters,
every box produced by `compute_bboxes` satisfies `0 ≤ top ≤ bottom` and
`0 ≤ left ≤ right`; top and left are clamped at 0, but bottom and right are
not clipped to the height and width of the label map and may exceed them. -/
theorem C3_amended (m : LabelMap) (pad : Int × Int × Int × Int)
    (padr : ℚ × ℚ × ℚ × ℚ) (h0 : 0 ≤ pad.1) (h1 : 0 ≤ pad.2.1)
    (h2 : 0 ≤ pad.2.2.1) (h3 : 0 ≤ pad.2.2.2) :
    ∀ box ∈ compute_bboxes m pad padr,
      0 ≤ box.t ∧ box.t ≤ box.b ∧ 0 ≤ box.l ∧ box.l ≤ box.r := by
  intro box hbox
  rw [compute_bboxes, compute_slices_eq, List.map_map] at hbox
  obtain ⟨k, _, rfl⟩ := List.mem_map.mp hbox
  obtain ⟨hy, hx⟩ := sliceOfLabel_wf m k
  obtain ⟨g0, g1, g2, g3, g4, g5⟩ :=
    boxOfSlice_grows pad padr (sliceOfLabel m k) h0 h1 h2 h3
  refine ⟨g0, ?_, g3, ?_⟩
  · calc (boxOfSlice pad padr (sliceOfLabel m k)).t
        ≤ ((sliceOfLabel m k).ystart : Int) := g1
      _ ≤ ((sliceOfLabel m k).ystop : Int) := by exact_mod_cast hy
      _ ≤ (boxOfSlice pad padr (sliceOfLabel m k)).b := g2
  · calc (boxOfSlice pad padr (sliceOfLabel m k)).l
        ≤ ((sliceOfLabel m k).xstart : Int) := g4
      _ ≤ ((sliceOfLabel m k).xstop : Int) := by exact_mod_cast hx
      _ ≤ (boxOfSlice pad padr (sliceOfLabel m k)).r := g5

/-- Witness for the amended claim C3 on a concrete map and padding. -/
theorem C3_amended_witness :
    (0 : Int) ≤ 0 ∧ (0 : Int) ≤ 11 ∧ (0 : Int) ≤ 0 ∧ (0 : Int) ≤ 11 :=
  C3_amended [[1]] (10, 10, 10, 10) (0, 0, 0, 0) (by decide) (by decide)
    (by decide) (by decide) ⟨0, 0, 11, 11⟩ (by decide)

/-- Claim C7 is false on the code as quantified (over every padding
parameter): with padding `pad = padr = -100`, the single-pixel map `[[1]]`
yields the box (t 100, l 100, b -99, r -99), which does not contain the
pixel (0, 0) of label 1 — padding can shrink the box below the minimal
enclosing rectangle when the parameters are negative. -/
theorem C7_counterexample :
    compute_bboxes [[1]] (-100, -100, -100, -100) (-100, -100, -100, -100) =
        [⟨100, 100, -99, -99⟩] ∧
      labelAt [[1]] 0 0 = 1 ∧ ¬((100 : Int) ≤ 0 ∧ (0 : Int) < -99) := by
  refine ⟨by decide, rfl, by decide⟩

/-- Amended claim C7: for every label map and nonnegative padding parameters,
`compute_bboxes` produces exactly one box per distinct nonzero label present
in the map (in ascending label order); the i-th box contains the minimal
enclosing rectangle of the i-th present label — so padding only enlarges —
and hence contains every pixel carrying that label. -/
theorem C7_amended (m : LabelMap) (pad : Int × Int × Int × Int)
    (padr : ℚ × ℚ × ℚ × ℚ) (h0 : 0 ≤ pad.1) (h1 : 0 ≤ pad.2.1)
    (h2 : 0 ≤ pad.2.2.1) (h3 : 0 ≤ pad.2.2.2) :
    (compute_bboxes m pad padr).length = (presentLabels m).length ∧
      ∀ i, i < (presentLabels m).length →
        (((compute_bboxes m pad padr).getD i ⟨0, 0, 0, 0⟩).t ≤
            ((sliceOfLabel m ((presentLabels m).getD i 0)).ystart : Int) ∧
          ((sliceOfLabel m ((presentLabels m).getD i 0)).ystop : Int) ≤
            ((compute_bboxes m pad padr).getD i ⟨0, 0, 0, 0⟩).b ∧
          ((compute_bboxes m pad padr).getD i ⟨0, 0, 0, 0⟩).l ≤
            ((sliceOfLabel m ((presentLabels m).getD i 0)).xstart : Int) ∧
          ((sliceOfLabel m ((presentLabels m).getD i 0)).xstop : Int) ≤
            ((compute_bboxes m pad padr).getD i ⟨0, 0, 0, 0⟩).r) ∧
        ∀ y x, labelAt m y x = (presentLabels m).getD i 0 →
          (((compute_bboxes m pad padr).getD i ⟨0, 0, 0, 0⟩).t ≤ (y : Int) ∧
            (y : Int) < ((compute_bboxes m pad padr).getD i ⟨0, 0, 0, 0⟩).b ∧
            ((compute_bboxes m pad padr).getD i ⟨0, 0, 0, 0⟩).l ≤ (x : Int) ∧
            (x : Int) < ((compute_bboxes m pad padr).getD i ⟨0, 0, 0, 0⟩).r) := by
  have hrw : compute_bboxes m pad padr =
      (presentLabels m).map (fun k => boxOfSlice pad padr (sliceOfLabel m k)) := by
    rw [compute_bboxes, compute_slices_eq, List.map_map]
    rfl
  constructor
  · rw [hrw, List.length_map]
  · intro i hi
    have hlen : i < (compute_bboxes m pad padr).length := by
      rw [hrw, List.length_map]; exact hi
    have hbox : (compute_bboxes m pad padr).getD i ⟨0, 0, 0, 0⟩ =
        boxOfSlice pad padr (sliceOfLabel m ((presentLabels m).getD i 0)) := by
      rw [hrw, List.getD_eq_getElem _ _ (by rw [List.length_map]; exact hi),
        List.getElem_map, List.getD_eq_getElem _ _ hi]
    obtain ⟨g0, g1, g2, g3, g4, g5⟩ :=
      boxOfSlice_grows pad padr (sliceOfLabel m ((presentLabels m).getD i 0))
        h0 h1 h2 h3
    have hk0 : (presentLabels m).getD i 0 ≠ 0 := by
      have hmem : (presentLabels m).getD i 0 ∈ presentLabels m := by
        rw [List.getD_eq_getElem _ _ hi]
        exact List.getElem_mem hi
      have : (presentLabels m).getD i 0 ∈ List.range' 1 (maxLabel m) :=
        List.mem_of_mem_filter hmem
      have := (List.mem_range'_1.mp this).1
      omega
    constructor
    · rw [hbox]; exact ⟨g1, g2, g4, g5⟩
    · intro y x hyx
      have hpix := mem_pixelsWith m ((presentLabels m).getD i 0) y x hk0 hyx
      obtain ⟨b0, b1, b2, b3⟩ :=
        sliceOfLabel_bounds m ((presentLabels m).getD i 0) y x hpix
      rw [hbox]
      refine ⟨le_trans g1 (by exact_mod_cast b0), ?_, le_trans g4 (by exact_mod_cast b2), ?_⟩
      · calc (y : Int)
            < ((sliceOfLabel m ((presentLabels m).getD i 0)).ystop : Int) := by
              exact_mod_cast b1
          _ ≤ _ := g2
      · calc (x : Int)
            < ((sliceOfLabel m ((presentLabels m).getD i 0)).xstop : Int) := by
              exact_mod_cast b3
          _ ≤ _ := g5

/-- Witness for the amended claim C7 on a concrete map: `[[0,2],[2,0]]` has
one present label (2) and one box. -/
theorem C7_amended_witness :
    (compute_bboxes [[0, 2], [2, 0]] (1, 1, 1, 1) (0, 0, 0, 0)).length =
        (presentLabels [[0, 2], [2, 0]]).length ∧
      presentLabels [[0, 2], [2, 0]] = [2] :=
  ⟨(C7_amended [[0, 2], [2, 0]] (1, 1, 1, 1) (0, 0, 0, 0) (by decide) (by decide)
      (by decide) (by decide)).1, by decide⟩

/-- A grayscale image with values in [0, 1], as a list of rows of exact
rationals (Python floats idealized). -/
abbrev QImage := List (List ℚ)

/-- Embeds `np.amin` over an image (junk 0 on the empty array, on which numpy
raises; every use here is guarded by the shape checks). -/
def np_amin (img : QImage) : ℚ :=
  match img.join with
  | [] => 0
  | v :: vs => vs.foldl min v

/-- Embeds `np.amax` over an image (junk 0 on the empty array). -/
def np_amax (img : QImage) : ℚ :=
  match img.join with
  | [] => 0
  | v :: vs => vs.foldl max v

/-- Width of an image, `binarized.shape[1]`: the length of the first row
(numpy arrays are rectangular). -/
def npWidth (img : QImage) : Nat := (img.headD []).length

/-- Embeds `PageRecognizer.valid_binary_image` (ocrinf.py lines 622-639):
`h, w = binarized.shape`; reject when `h < 10 and w < 10`, when `h > 200`,
when `h < 5 or w < 5`, or when not (`min < 0.1 and max > 0.9`); the
`if False:` block in the source is dead code. -/
def valid_binary_image (img : QImage) : Bool :=
  let h := img.length
  let w := npWidth img
  if h < 10 ∧ w < 10 then false
  else if 200 < h then false
  else if h < 5 ∨ w < 5 then false
  else if ¬(np_amin img < 1/10 ∧ np_amax img > 9/10) then false
  else true

/-- The acceptance rule of claim C5, written from the claim's words: min
below 0.1, max above 0.9, height within [5, 200], and not both width and
height below 10 — with no lower bound on the width alone. -/
def claimRuleC5 (img : QImage) : Prop :=
  np_amin img < 1/10 ∧ np_amax img > 9/10 ∧
    5 ≤ img.length ∧ img.length ≤ 200 ∧
    ¬(img.length < 10 ∧ npWidth img < 10)

set_option maxRecDepth 4000 in
/-- Claim C5 is false on the code: a 12×4 crop with full contrast satisfies
every condition of the claim, yet `valid_binary_image` rejects it because of
the `w < 5` test in `if h < 5 or w < 5` — the width alone does cause
rejection. -/
theorem C5_counterexample :
    claimRuleC5 (List.replicate 12 [0, 1, 0, 0]) ∧
      valid_binary_image (List.replicate 12 [0, 1, 0, 0]) = false := by
  constructor
  · refine ⟨by decide, by decide, by decide, by decide, by decide⟩
  · decide

/-- Amended claim C5: a crop is kept if and only if its minimum is below 0.1
and its maximum above 0.9, its height lies within [5, 200] pixels, its width
is at least 5 pixels, and not both width and height are below 10 pixels. -/
theorem C5_amended (img : QImage) :
    valid_binary_image img = true ↔
      ((np_amin img < 1/10 ∧ np_amax img > 9/10) ∧
        5 ≤ img.length ∧ img.length ≤ 200 ∧
        5 ≤ npWidth img ∧
        ¬(img.length < 10 ∧ npWidth img < 10)) := by
  by_cases hA : img.length < 10 ∧ npWidth img < 10 <;>
    by_cases hB : 200 < img.length <;>
    by_cases hC : img.length < 5 ∨ npWidth img < 5 <;>
    by_cases hD : np_amin img < 1/10 ∧ np_amax img > 9/10 <;>
    simp [valid_binary_image, hA, hB, hC, hD] <;> omega

/-- Joint encoding `correspondence = 1000000 * word_labels + all_components`,
elementwise over the raveled arrays (ocrinf.py line 343). -/
def correspondence (wordLabels allComponents : List Nat) : List Nat :=
  List.zipWith (fun w c => 1000000 * w + c) wordLabels allComponents

def insertSorted (a : Nat) : List Nat → List Nat
  | [] => [a]
  | b :: bs => if a ≤ b then a :: b :: bs else b :: insertSorted a bs

def sortNat (l : List Nat) : List Nat := l.foldr insertSorted []

/-- Embeds `np.unique(...)`: the distinct values in ascending order. -/
def uniqueSorted (l : List Nat) : List Nat := (sortNat l).dedup

/-- Decoding `(k // 1000000, k % 1000000)` of the encoded pairs (ocrinf.py
lines 348-350). -/
def toPairs (l : List Nat) : List (Nat × Nat) :=
  l.map fun k => (k / 1000000, k % 1000000)

/-- One iteration of the assignment loop of `compute_segmentation` step 7
(ocrinf.py lines 348-359): skip when `comp == 0` or `word == 0`; otherwise
execute `wordmap[comp] = word` unconditionally — the `if wordmap[comp] > 0:`
branch only documents a FIXME and falls through to the assignment. -/
def wordmapStep (wm : List Nat) (p : Nat × Nat) : List Nat :=
  if p.2 = 0 then wm else if p.1 = 0 then wm else wm.set p.2 p.1

/-- Embeds the marker-to-component assignment of `compute_segmentation`
(ocrinf.py lines 343-359) on the raveled second-stage label array
`word_labels` and component array `all_components`:
`ncomponents = amax(all_components) + 1`, then fold the assignment loop over
the decoded unique pairs. -/
def step7_wordmap (wordLabels allComponents : List Nat) : List Nat :=
  let ncomponents := allComponents.foldl max 0 + 1
  (toPairs (uniqueSorted (correspondence wordLabels allComponents))).foldl
    wordmapStep (List.replicate ncomponents 0)

/-- Embeds `result = wordmap[all_components]` (ocrinf.py line 361). -/
def step7_result (wordLabels allComponents : List Nat) : List Nat :=
  allComponents.map fun c => (step7_wordmap wordLabels allComponents).getD c 0

/-- Claim C1 is false on the code: on a two-pixel page whose single component
(id 1) overlaps markers 1 and 2, the enumerated pairs are (1,1) then (2,1);
after the first pair the component holds word 1, and the later pair
overwrites it to word 2 — the loop keeps the last-seen assignment, not the
first-seen one. -/
theorem C1_counterexample :
    toPairs (uniqueSorted (correspondence [1, 2] [1, 1])) = [(1, 1), (2, 1)] ∧
      List.foldl wordmapStep [0, 0] [(1, 1)] = [0, 1] ∧
      step7_wordmap [1, 2] [1, 1] = [0, 2] := by
  refine ⟨by decide, by decide, by decide⟩

theorem wordmapStep_length (wm : List Nat) (p : Nat × Nat) :
    (wordmapStep wm p).length = wm.length := by
  unfold wordmapStep
  split
  · rfl
  · split
    · rfl
    · exact List.length_set wm p.2 p.1

theorem foldl_wordmapStep_length (ps : List (Nat × Nat)) (wm : List Nat) :
    (List.foldl wordmapStep wm ps).length = wm.length := by
  induction ps generalizing wm with
  | nil => rfl
  | cons p ps ih => rw [List.foldl_cons, ih, wordmapStep_length]

/-- Amended claim C1: in the assignment loop of `compute_segmentation`
step 7, a later-enumerated qualifying (word, component) pair always
overwrites any earlier assignment: whatever the earlier pairs did, a final
qualifying pair (w, c) leaves `wordmap[c] = w`.  A component overlapping
several markers therefore keeps the last-seen (largest) overlapping word id,
not the first-seen one. -/
theorem C1_amended (wm : List Nat) (ps : List (Nat × Nat)) (w c : Nat)
    (hw : w ≠ 0) (hc : c ≠ 0) (hlen : c < wm.length) :
    (List.foldl wordmapStep wm (ps ++ [(w, c)])).getD c 0 = w := by
  rw [List.foldl_append, List.foldl_cons, List.foldl_nil]
  have hlen2 : c < (List.foldl wordmapStep wm ps).length := by
    rw [foldl_wordmapStep_length]; exact hlen
  unfold wordmapStep
  simp only [hc, hw, if_false]
  rw [List.getD_eq_getElem _ _ (by simpa using hlen2)]
  simp [List.getElem_set_self]

/-- Witness for the amended claim C1 at the counterexample's input. -/
theorem C1_amended_witness :
    (List.foldl wordmapStep [0, 0] ([(1, 1)] ++ [(2, 1)])).getD 1 0 = 2 :=
  C1_amended [0, 0] [(1, 1)] 2 1 (by decide) (by decide) (by decide)

/-- Coordinates of the labeled (nonzero) pixels of a map, in raster order. -/
def labeledPixels (m : LabelMap) : List (Nat × Nat) :=
  (List.range m.length).bind fun y =>
    ((List.range (m.getD y []).length).filter fun x =>
      decide (labelAt m y x ≠ 0)).map fun x => (y, x)

/-- Squared Euclidean distance between two pixel coordinates. -/
def d2 (p q : Nat × Nat) : Int :=
  ((p.1 : Int) - (q.1 : Int)) ^ 2 + ((p.2 : Int) - (q.2 : Int)) ^ 2

/-- One step of the nearest-labeled-pixel scan: keep the first strict
minimizer of the squared distance seen so far. -/
def nearestStep (p : Nat × Nat) (acc : Option (Nat × Nat)) (q : Nat × Nat) :
    Option (Nat × Nat) :=
  match acc with
  | none => some q
  | some q0 => if d2 p q < d2 p q0 then some q else acc

/-- The nearest labeled pixel of `p`, as delivered by the index arrays of
`ndi.distance_transform_edt(labels == 0, return_indices=1)` (ocrinf.py line
138).  Ties among equidistant labeled pixels are broken by scipy in an
implementation-defined way; this model keeps the first minimizer in raster
order, and the property proved here depends only on the unique-minimizer
case (a labeled pixel is its own unique nearest labeled pixel). -/
def nearestLabeled (m : LabelMap) (p : Nat × Nat) : Option (Nat × Nat) :=
  (labeledPixels m).foldl (nearestStep p) none

/-- Embeds `spread_labels` (ocrinf.py lines 136-142): every pixel takes the
label of its nearest labeled pixel (`labels.ravel()[indexes]`), masked to 0
where `distances < maxdist` fails.  The comparison on the Euclidean distance
is modelled on squared distances as `0 ≤ maxdist ∧ d2 < maxdist^2`, which
agrees with `sqrt d2 < maxdist` for every real `maxdist`.  On a map with no
labeled pixel every output is 0. -/
def spread_labels (m : LabelMap) (maxdist : ℚ) : LabelMap :=
  (List.range m.length).map fun y =>
    (List.range (m.getD y []).length).map fun x =>
      match nearestLabeled m (y, x) with
      | none => 0
      | some q =>
          if 0 ≤ maxdist ∧ ((d2 (y, x) q : Int) : ℚ) < maxdist ^ 2 then
            labelAt m q.1 q.2
          else 0

theorem d2_self (p : Nat × Nat) : d2 p p = 0 := by simp [d2]

theorem d2_nonneg (p q : Nat × Nat) : 0 ≤ d2 p q :=
  add_nonneg (sq_nonneg _) (sq_nonneg _)

theorem d2_eq_zero (p q : Nat × Nat) (h : d2 p q = 0) : q = p := by
  unfold d2 at h
  have h1 : ((p.1 : Int) - (q.1 : Int)) ^ 2 = 0 ∧
      ((p.2 : Int) - (q.2 : Int)) ^ 2 = 0 :=
    (add_eq_zero_iff_of_nonneg (sq_nonneg _) (sq_nonneg _)).mp h
  have h2 : (p.1 : Int) = (q.1 : Int) := by
    have := pow_eq_zero_iff (n := 2) (by omega) |>.mp h1.1
    omega
  have h3 : (p.2 : Int) = (q.2 : Int) := by
    have := pow_eq_zero_iff (n := 2) (by omega) |>.mp h1.2
    omega
  have : p.1 = q.1 := by exact_mod_cast h2
  have : p.2 = q.2 := by exact_mod_cast h3
  cases p; cases q; simp_all

theorem nearestStep_isSome (p : Nat × Nat) (acc : Option (Nat × Nat))
    (q : Nat × Nat) : (nearestStep p acc q).isSome := by
  rcases acc with _ | q0
  · rfl
  · simp only [nearestStep]
    split <;> rfl

theorem foldl_nearestStep_isSome (p : Nat × Nat) (l : List (Nat × Nat))
    (acc : Option (Nat × Nat)) (h : acc.isSome ∨ l ≠ []) :
    (List.foldl (nearestStep p) acc l).isSome := by
  induction l generalizing acc with
  | nil =>
      cases h with
      | inl h2 => exact h2
      | inr h2 => exact absurd rfl h2
  | cons q qs ih =>
      rw [List.foldl_cons]
      exact ih _ (Or.inl (nearestStep_isSome p acc q))

theorem foldl_nearestStep_le (p : Nat × Nat) (l : List (Nat × Nat)) :
    ∀ (q1 q2 : Nat × Nat),
      List.foldl (nearestStep p) (some q1) l = some q2 → d2 p q2 ≤ d2 p q1 := by
  induction l with
  | nil =>
      intro q1 q2 hf
      rw [List.foldl_nil] at hf
      cases hf
      exact le_refl _
  | cons u us ih =>
      intro q1 q2 hf
      rw [List.foldl_cons] at hf
      simp only [nearestStep] at hf
      by_cases hd : d2 p u < d2 p q1
      · rw [if_pos hd] at hf
        exact le_trans (ih u q2 hf) (le_of_lt hd)
      · rw [if_neg hd] at hf
        exact ih q1 q2 hf

theorem foldl_nearestStep_min (p : Nat × Nat) (l : List (Nat × Nat)) :
    ∀ (acc : Option (Nat × Nat)) (q : Nat × Nat),
      List.foldl (nearestStep p) acc l = some q → ∀ r ∈ l, d2 p q ≤ d2 p r := by
  induction l with
  | nil => intro acc q _ r hr; cases hr
  | cons s ss ih =>
      intro acc q hf r hr
      rw [List.foldl_cons] at hf
      cases hr with
      | head =>
          have hstep : ∃ q1, nearestStep p acc s = some q1 ∧ d2 p q1 ≤ d2 p s := by
            rcases acc with _ | q0
            · exact ⟨s, rfl, le_refl _⟩
            · simp only [nearestStep]
              by_cases hd : d2 p s < d2 p q0
              · rw [if_pos hd]; exact ⟨s, rfl, le_refl _⟩
              · rw [if_neg hd]; exact ⟨q0, rfl, le_of_not_lt hd⟩
          obtain ⟨q1, hq1, hle⟩ := hstep
          rw [hq1] at hf
          exact le_trans (foldl_nearestStep_le p ss q1 q hf) hle
      | tail _ hr2 => exact ih _ q hf r hr2

theorem mem_labeledPixels (m : LabelMap) (y x : Nat)
    (h : labelAt m y x ≠ 0) : (y, x) ∈ labeledPixels m := by
  have hy : y < m.length := by
    by_contra hy
    apply h
    unfold labelAt
    rw [List.getD_eq_default m [] (le_of_not_lt hy)]
    simp
  have hx : x < (m.getD y []).length := by
    by_contra hx
    apply h
    unfold labelAt
    rw [List.getD_eq_default (m.getD y []) 0 (le_of_not_lt hx)]
  simp only [labeledPixels, List.mem_bind]
  refine ⟨y, by simpa using hy, ?_⟩
  simp only [List.mem_map, List.mem_filter, List.mem_range]
  exact ⟨x, ⟨hx, by simp [h]⟩, rfl⟩

theorem nearestLabeled_self (m : LabelMap) (y x : Nat)
    (h : labelAt m y x ≠ 0) : nearestLabeled m (y, x) = some (y, x) := by
  have hmem := mem_labeledPixels m y x h
  have hsome : (nearestLabeled m (y, x)).isSome :=
    foldl_nearestStep_isSome (y, x) (labeledPixels m) none
      (Or.inr (List.ne_nil_of_mem hmem))
  obtain ⟨q, hq⟩ := Option.isSome_iff_exists.mp hsome
  have hmin := foldl_nearestStep_min (y, x) (labeledPixels m) none q hq
  have hz : d2 (y, x) q = 0 :=
    le_antisymm (by simpa [d2_self] using hmin (y, x) hmem) (d2_nonneg _ _)
  have hq2 : nearestLabeled m (y, x) = some q := hq
  rw [hq2, d2_eq_zero (y, x) q hz]

/-- Claim C10 holds: for every label map and every maxdist > 0,
`spread_labels` keeps every originally-labeled pixel unchanged — its nearest
labeled pixel is itself, at distance 0 < maxdist — and only background
pixels can acquire a new label. -/
theorem C10_spread_labels (m : LabelMap) (maxdist : ℚ) (hmax : 0 < maxdist)
    (y x : Nat) (h : labelAt m y x ≠ 0) :
    labelAt (spread_labels m maxdist) y x = labelAt m y x := by
  have hy : y < m.length := by
    by_contra hy
    apply h
    unfold labelAt
    rw [List.getD_eq_default m [] (le_of_not_lt hy)]
    simp
  have hx : x < (m.getD y []).length := by
    by_contra hx
    apply h
    unfold labelAt
    rw [List.getD_eq_default (m.getD y []) 0 (le_of_not_lt hx)]
  have h1 : (spread_labels m maxdist).getD y [] =
      (List.range (m.getD y []).length).map fun x2 =>
        match nearestLabeled m (y, x2) with
        | none => 0
        | some q =>
            if 0 ≤ maxdist ∧ ((d2 (y, x2) q : Int) : ℚ) < maxdist ^ 2 then
              labelAt m q.1 q.2
            else 0 := by
    unfold spread_labels
    rw [List.getD_eq_getElem _ _ (by simpa using hy), List.getElem_map,
      List.getElem_range]
  show ((spread_labels m maxdist).getD y []).getD x 0 = labelAt m y x
  rw [h1, List.getD_eq_getElem _ _ (by simpa using hx), List.getElem_map,
    List.getElem_range, nearestLabeled_self m y x h]
  dsimp only
  have hcond : 0 ≤ maxdist ∧ ((d2 (y, x) (y, x) : Int) : ℚ) < maxdist ^ 2 := by
    refine ⟨le_of_lt hmax, ?_⟩
    rw [d2_self]
    push_cast
    exact pow_pos hmax 2
  rw [if_pos hcond]

/-- Witness for claim C10 on a concrete map: the labeled pixel (0, 1) of
value 2 keeps its label under spreading with maxdist 5. -/
theorem C10_spread_labels_witness :
    labelAt (spread_labels [[0, 2], [0, 0]] 5) 0 1 = labelAt [[0, 2], [0, 0]] 0 1 :=
  C10_spread_labels [[0, 2], [0, 0]] 5 (by norm_num) 0 1 (by decide)

/-- Embeds `find(order[:, k])` (ocrinf.py lines 499-502, 517): the ascending
indices `l < n` with `p l` true. -/
def npFind (n : Nat) (p : Nat → Bool) : List Nat := (List.range n).filter p

/-- Embeds the recursive `visit` of `topsort` (ocrinf.py lines 513-519):
return if `visited[k]`, else mark `k`, visit every predecessor
`l ∈ find(order[:, k])` in ascending order, then append `k` to `L`.  The
explicit `fuel` only serves Lean's termination: it never runs out when it
starts at or above the number of unvisited nodes, which the top level
guarantees, so the fuel-exhausted branch is unreachable there. -/
def visit (g : Nat → Nat → Bool) (n : Nat) :
    Nat → ((Nat → Bool) × List Nat) → Nat → ((Nat → Bool) × List Nat)
  | 0, s, _ => s
  | fuel + 1, s, k =>
      if s.1 k then s
      else
        let v2 : Nat → Bool := fun x => if x = k then true else s.1 x
        let s2 := (npFind n fun l => g l k).foldl (visit g n fuel) (v2, s.2)
        (s2.1, s2.2 ++ [k])

/-- Embeds `topsort(order)` (ocrinf.py lines 505-523) on an n×n boolean
matrix given as a function: `visit(k)` for `k` in 0..n-1, returning `L`. -/
def topsort (n : Nat) (g : Nat → Nat → Bool) : List Nat :=
  ((List.range n).foldl (visit g n n) (fun _ => false, [])).2

/-- Number of unvisited nodes among 0..n-1. -/
def unvisited (n : Nat) (v : Nat → Bool) : Nat :=
  ((List.range n).filter fun x => !(v x)).length

/-- The state invariant of the traversal: `L` holds distinct indices below
`n`, the visited set is exactly `L` plus the grey (in-progress) nodes `G`,
and grey nodes are not yet appended. -/
def TsInv (n : Nat) (v : Nat → Bool) (L G : List Nat) : Prop :=
  L.Nodup ∧ (∀ x, v x = true ↔ (x ∈ L ∨ x ∈ G)) ∧ (∀ x ∈ L, x < n) ∧
    ∀ x ∈ G, x ∉ L

theorem filter_length_le_of_imp (l : List Nat) (a b : Nat → Bool)
    (h : ∀ x, a x = true → b x = true) :
    (l.filter a).length ≤ (l.filter b).length := by
  induction l with
  | nil => exact le_refl 0
  | cons x xs ih =>
      by_cases hx : a x = true
      · rw [List.filter_cons_of_pos hx, List.filter_cons_of_pos (h x hx)]
        simpa using ih
      · rw [List.filter_cons_of_neg (by simpa using hx)]
        by_cases hbx : b x = true
        · rw [List.filter_cons_of_pos hbx]
          exact le_trans ih (Nat.le_succ _)
        · rw [List.filter_cons_of_neg (by simpa using hbx)]
          exact ih

theorem filter_length_lt_of_imp (l : List Nat) (a b : Nat → Bool) (k : Nat)
    (h : ∀ x, a x = true → b x = true) (hk : k ∈ l) (hbk : b k = true)
    (hak : a k = false) : (l.filter a).length < (l.filter b).length := by
  induction l with
  | nil => cases hk
  | cons x xs ih =>
      by_cases hxk : x = k
      · subst hxk
        rw [List.filter_cons_of_neg (by simp [hak]), List.filter_cons_of_pos hbk]
        exact Nat.lt_succ_of_le (filter_length_le_of_imp xs a b h)
      · have hk2 : k ∈ xs := by
          cases hk with
          | head => exact absurd rfl hxk
          | tail _ h2 => exact h2
        by_cases hx : a x = true
        · rw [List.filter_cons_of_pos hx, List.filter_cons_of_pos (h x hx)]
          simpa using ih hk2
        · rw [List.filter_cons_of_neg (by simpa using hx)]
          by_cases hbx : b x = true
          · rw [List.filter_cons_of_pos hbx]
            exact Nat.lt_succ_of_le (le_of_lt (ih hk2))
          · rw [List.filter_cons_of_neg (by simpa using hbx)]
            exact ih hk2

theorem unvisited_le (n : Nat) (v : Nat → Bool) : unvisited n v ≤ n := by
  have := List.length_filter_le (fun x => !(v x)) (List.range n)
  simpa [unvisited] using this

theorem unvisited_mono (n : Nat) (v v2 : Nat → Bool)
    (h : ∀ x, v x = true → v2 x = true) : unvisited n v2 ≤ unvisited n v := by
  apply filter_length_le_of_imp
  intro x hx
  simp only [Bool.not_eq_true'] at hx ⊢
  by_contra hc
  rw [h x (by simpa using hc)] at hx
  cases hx

theorem unvisited_strict (n : Nat) (v v2 : Nat → Bool) (k : Nat)
    (h : ∀ x, v x = true → v2 x = true) (hk : k < n) (hvk : v k = false)
    (hv2k : v2 k = true) : unvisited n v2 < unvisited n v := by
  apply filter_length_lt_of_imp _ _ _ k
  · intro x hx
    simp only [Bool.not_eq_true'] at hx ⊢
    by_contra hc
    rw [h x (by simpa using hc)] at hx
    cases hx
  · simpa using hk
  · simp [hvk]
  · simp [hv2k]

theorem unvisited_zero_all (n : Nat) (v : Nat → Bool)
    (h : unvisited n v = 0) : ∀ k, k < n → v k = true := by
  intro k hk
  have h2 : (List.range n).filter (fun x => !(v x)) = [] :=
    List.length_eq_zero.mp h
  have h3 := List.filter_eq_nil.mp h2 k (by simpa using hk)
  simpa using h3

theorem foldl_visit_zero (g : Nat → Nat → Bool) (n : Nat) (ps : List Nat)
    (s : (Nat → Bool) × List Nat) : ps.foldl (visit g n 0) s = s := by
  induction ps generalizing s with
  | nil => rfl
  | cons p ps2 ih => rw [List.foldl_cons]; exact ih _

/-- Permutation master lemma for the traversal: folding `visit` over any
list of indices below `n` preserves the state invariant, only grows the
visited set, appends only new nodes, and leaves every index of the list
visited — for every matrix, cyclic or not. -/
theorem visit_fold_perm (g : Nat → Nat → Bool) (n : Nat) :
    ∀ (fuel : Nat) (ps : List Nat) (v : Nat → Bool) (L G : List Nat),
      unvisited n v ≤ fuel → (∀ x ∈ ps, x < n) → TsInv n v L G →
      ∃ v2 L2, ps.foldl (visit g n fuel) (v, L) = (v2, L2) ∧
        (∀ x, v x = true → v2 x = true) ∧ (∀ x ∈ ps, v2 x = true) ∧
        (∃ D, L2 = L ++ D) ∧ TsInv n v2 L2 G := by
  intro fuel
  induction fuel with
  | zero =>
      intro ps v L G hfuel hps hinv
      refine ⟨v, L, foldl_visit_zero g n ps (v, L), fun x hx => hx, ?_,
        ⟨[], by simp⟩, hinv⟩
      intro x hx
      exact unvisited_zero_all n v (Nat.le_zero.mp hfuel) x (hps x hx)
  | succ f ihf =>
      intro ps
      induction ps with
      | nil =>
          intro v L G hfuel hps hinv
          exact ⟨v, L, rfl, fun x hx => hx, by simp, ⟨[], by simp⟩, hinv⟩
      | cons p ps2 ihp =>
          intro v L G hfuel hps hinv
          rw [List.foldl_cons]
          have hp : p < n := hps p (List.mem_cons_self p ps2)
          by_cases hv : v p = true
          · have hstep : visit g n (f + 1) (v, L) p = (v, L) := by
              simp [visit, hv]
            rw [hstep]
            obtain ⟨v2, L2, heq, hmono, hall, hexp, hinv2⟩ :=
              ihp v L G hfuel (fun x hx => hps x (List.mem_cons_of_mem p hx)) hinv
            exact ⟨v2, L2, heq, hmono, fun x hx => by
              cases hx with
              | head => exact hmono p hv
              | tail _ h2 => exact hall x h2, hexp, hinv2⟩
          · have hvp : v p = false := by simpa using hv
            have hpL : p ∉ L := by
              intro hc
              rw [(hinv.2.1 p).mpr (Or.inl hc)] at hvp
              cases hvp
            have hpG : p ∉ G := by
              intro hc
              rw [(hinv.2.1 p).mpr (Or.inr hc)] at hvp
              cases hvp
            have hstep : visit g n (f + 1) (v, L) p =
                (((npFind n fun l => g l p).foldl (visit g n f)
                    ((fun x => if x = p then true else v x), L)).1,
                 ((npFind n fun l => g l p).foldl (visit g n f)
                    ((fun x => if x = p then true else v x), L)).2 ++ [p]) := by
              simp [visit, hv]
            have hinner : TsInv n (fun x => if x = p then true else v x) L
                (p :: G) := by
              obtain ⟨hnd, hiff, hbnd, hdisj⟩ := hinv
              refine ⟨hnd, ?_, hbnd, ?_⟩
              · intro x
                by_cases hx : x = p
                · subst hx
                  simp [hpL]
                · simp only [hx, if_false]
                  rw [hiff x]
                  constructor
                  · rintro (h1 | h1)
                    · exact Or.inl h1
                    · exact Or.inr (List.mem_cons_of_mem p h1)
                  · rintro (h1 | h1)
                    · exact Or.inl h1
                    · cases h1 with
                      | head => exact absurd rfl hx
                      | tail _ h2 => exact Or.inr h2
              · intro x hx
                cases hx with
                | head => exact hpL
                | tail _ h2 => exact hdisj x h2
            have hfuel2 : unvisited n (fun x => if x = p then true else v x) ≤ f := by
              have := unvisited_strict n v (fun x => if x = p then true else v x)
                p (fun x hx => by by_cases h2 : x = p <;> simp [h2, hx]) hp hvp
                (by simp)
              omega
            obtain ⟨va, La, heqa, hmonoa, halla, ⟨Da, hDa⟩, hinva⟩ :=
              ihf (npFind n fun l => g l p)
                (fun x => if x = p then true else v x) L (p :: G) hfuel2
                (fun x hx => by
                  have := List.mem_filter.mp hx
                  simpa using this.1) hinner
            rw [hstep, heqa]
            dsimp only
            have hmono2 : ∀ x, v x = true → va x = true := fun x hx =>
              hmonoa x (by by_cases h2 : x = p <;> simp [h2, hx])
            have hpLa : p ∉ La := hinva.2.2.2 p (List.mem_cons_self p G)
            have hinvb : TsInv n va (La ++ [p]) G := by
              obtain ⟨hnd, hiff, hbnd, hdisj⟩ := hinva
              refine ⟨?_, ?_, ?_, ?_⟩
              · rw [List.nodup_append]
                exact ⟨hnd, List.nodup_singleton p,
                  fun x hx hx2 => by
                    rw [List.mem_singleton] at hx2
                    subst hx2
                    exact hpLa hx⟩
              · intro x
                rw [hiff x]
                constructor
                · rintro (h1 | h1)
                  · exact Or.inl (List.mem_append_left _ h1)
                  · cases h1 with
                    | head => exact Or.inl (List.mem_append_right _ (by simp))
                    | tail _ h2 => exact Or.inr h2
                · rintro (h1 | h1)
                  · rcases List.mem_append.mp h1 with h2 | h2
                    · exact Or.inl h2
                    · rw [List.mem_singleton] at h2
                      subst h2
                      exact Or.inr (List.mem_cons_self x G)
                  · exact Or.inr (List.mem_cons_of_mem p h1)
              · intro x hx
                rcases List.mem_append.mp hx with h2 | h2
                · exact hbnd x h2
                · rw [List.mem_singleton] at h2
                  subst h2
                  exact hp
              · intro x hx hx2
                rcases List.mem_append.mp hx2 with h2 | h2
                · exact hdisj x (List.mem_cons_of_mem p hx) h2
                · rw [List.mem_singleton] at h2
                  subst h2
                  exact hpG hx
            have hfuel3 : unvisited n va ≤ f + 1 :=
              le_trans (unvisited_mono n v va hmono2) hfuel
            obtain ⟨vb, Lb, heqb, hmonob, hallb, ⟨Db, hDb⟩, hinvc⟩ :=
              ihp va (La ++ [p]) G hfuel3
                (fun x hx => hps x (List.mem_cons_of_mem p hx)) hinvb
            refine ⟨vb, Lb, heqb, fun x hx => hmonob x (hmono2 x hx), ?_,
              ⟨Da ++ [p] ++ Db, by rw [hDb, hDa]; simp⟩, hinvc⟩
            intro x hx
            cases hx with
            | head => exact hmonob p (hmonoa p (by simp))
            | tail _ h2 => exact hallb x h2

/-- An order matrix is acyclic when no index reaches itself through a
nonempty chain of true entries. -/
def Acyclic (g : Nat → Nat → Bool) : Prop :=
  ∀ x, ¬ Relation.TransGen (fun a b => g a b = true) x x

/-- Every predecessor (with respect to the matrix) of an appended node has
been visited: the key invariant for the ordering property. -/
def PredsVisited (n : Nat) (g : Nat → Nat → Bool) (v : Nat → Bool)
    (L : List Nat) : Prop :=
  ∀ a ∈ L, ∀ i, i < n → g i a = true → v i = true

/-- No entry of `L` precedes (in the matrix) an entry appended before it. -/
def NoBackEdge (g : Nat → Nat → Bool) (L : List Nat) : Prop :=
  List.Pairwise (fun a b => g b a = false) L

theorem TsInv_mark (n : Nat) (v : Nat → Bool) (L G : List Nat) (p : Nat)
    (hvp : v p = false) (hinv : TsInv n v L G) :
    TsInv n (fun x => if x = p then true else v x) L (p :: G) := by
  obtain ⟨hnd, hiff, hbnd, hdisj⟩ := hinv
  have hpL : p ∉ L := by
    intro hc
    rw [(hiff p).mpr (Or.inl hc)] at hvp
    cases hvp
  refine ⟨hnd, ?_, hbnd, ?_⟩
  · intro x
    by_cases hx : x = p
    · subst hx
      simp [hpL]
    · simp only [hx, if_false]
      rw [hiff x]
      constructor
      · rintro (h1 | h1)
        · exact Or.inl h1
        · exact Or.inr (List.mem_cons_of_mem p h1)
      · rintro (h1 | h1)
        · exact Or.inl h1
        · cases h1 with
          | head => exact absurd rfl hx
          | tail _ h2 => exact Or.inr h2
  · intro x hx
    cases hx with
    | head => exact hpL
    | tail _ h2 => exact hdisj x h2

/-- Ordering master lemma: on an acyclic matrix, folding `visit` preserves
the predecessors-visited invariant and the absence of back edges in `L`, and
every newly appended node reaches one of the visited roots. -/
theorem visit_fold_order (g : Nat → Nat → Bool) (n : Nat) (hacyc : Acyclic g) :
    ∀ (fuel : Nat) (ps : List Nat) (v : Nat → Bool) (L G : List Nat),
      unvisited n v ≤ fuel → (∀ x ∈ ps, x < n) → TsInv n v L G →
      PredsVisited n g v L → NoBackEdge g L →
      ∃ v2 L2 D, ps.foldl (visit g n fuel) (v, L) = (v2, L2) ∧ L2 = L ++ D ∧
        (∀ x ∈ D, ∃ p ∈ ps,
          Relation.ReflTransGen (fun a b => g a b = true) x p) ∧
        PredsVisited n g v2 L2 ∧ NoBackEdge g L2 := by
  intro fuel
  induction fuel with
  | zero =>
      intro ps v L G hfuel hps hinv hpv hnb
      exact ⟨v, L, [], foldl_visit_zero g n ps (v, L), by simp,
        by simp, hpv, hnb⟩
  | succ f ihf =>
      intro ps
      induction ps with
      | nil =>
          intro v L G hfuel hps hinv hpv hnb
          exact ⟨v, L, [], rfl, by simp, by simp, hpv, hnb⟩
      | cons p ps2 ihp =>
          intro v L G hfuel hps hinv hpv hnb
          rw [List.foldl_cons]
          have hp : p < n := hps p (List.mem_cons_self p ps2)
          by_cases hv : v p = true
          · have hstep : visit g n (f + 1) (v, L) p = (v, L) := by
              simp [visit, hv]
            rw [hstep]
            obtain ⟨v2, L2, D, heq, hD, hreach, hpv2, hnb2⟩ :=
              ihp v L G hfuel (fun x hx => hps x (List.mem_cons_of_mem p hx))
                hinv hpv hnb
            exact ⟨v2, L2, D, heq, hD,
              fun x hx => by
                obtain ⟨q, hq1, hq2⟩ := hreach x hx
                exact ⟨q, List.mem_cons_of_mem p hq1, hq2⟩, hpv2, hnb2⟩
          · have hvp : v p = false := by simpa using hv
            have hstep : visit g n (f + 1) (v, L) p =
                (((npFind n fun l => g l p).foldl (visit g n f)
                    ((fun x => if x = p then true else v x), L)).1,
                 ((npFind n fun l => g l p).foldl (visit g n f)
                    ((fun x => if x = p then true else v x), L)).2 ++ [p]) := by
              simp [visit, hv]
            have hinner := TsInv_mark n v L G p hvp hinv
            have hfuel2 : unvisited n (fun x => if x = p then true else v x) ≤ f := by
              have := unvisited_strict n v (fun x => if x = p then true else v x)
                p (fun x hx => by by_cases h2 : x = p <;> simp [h2, hx]) hp hvp
                (by simp)
              omega
            have hqlt : ∀ x ∈ npFind n (fun l => g l p), x < n := fun x hx => by
              have := List.mem_filter.mp hx
              simpa using this.1
            obtain ⟨va, La, Da, heqa, hDa, hreacha, hpva, hnba⟩ :=
              ihf (npFind n fun l => g l p)
                (fun x => if x = p then true else v x) L (p :: G) hfuel2 hqlt
                hinner
                (fun a ha i hi hg => by
                  by_cases h2 : i = p
                  · simp [h2]
                  · simp only [h2, if_false]
                    exact hpv a ha i hi hg)
                hnb
            obtain ⟨va2, La2, heqa2, hmonoa, halla, _, _⟩ :=
              visit_fold_perm g n f (npFind n fun l => g l p)
                (fun x => if x = p then true else v x) L (p :: G) hfuel2 hqlt
                hinner
            rw [heqa] at heqa2
            have hva : va2 = va := (congrArg Prod.fst heqa2).symm
            rw [hva] at hmonoa halla
            rw [hstep, heqa]
            dsimp only
            have hmono2 : ∀ x, v x = true → va x = true := fun x hx =>
              hmonoa x (by by_cases h2 : x = p <;> simp [h2, hx])
            have hedge : ∀ q ∈ npFind n (fun l => g l p), g q p = true :=
              fun q hq => (List.mem_filter.mp hq).2
            have hreachp : ∀ x ∈ Da,
                Relation.ReflTransGen (fun a b => g a b = true) x p := by
              intro x hx
              obtain ⟨q, hq1, hq2⟩ := hreacha x hx
              exact Relation.ReflTransGen.tail hq2 (hedge q hq1)
            have hpvb : PredsVisited n g va (La ++ [p]) := by
              intro a ha i hi hg
              rcases List.mem_append.mp ha with h2 | h2
              · exact hpva a h2 i hi hg
              · rw [List.mem_singleton] at h2
                subst h2
                exact halla i (by
                  simp only [npFind, List.mem_filter, List.mem_range]
                  exact ⟨hi, hg⟩)
            have hnbb : NoBackEdge g (La ++ [p]) := by
              rw [NoBackEdge, List.pairwise_append]
              refine ⟨hnba, List.pairwise_singleton _ _, ?_⟩
              intro a ha b hb
              rw [List.mem_singleton] at hb
              rw [hb]
              by_contra hcon
              have hcon2 : g p a = true := by simpa using hcon
              rw [hDa] at ha
              rcases List.mem_append.mp ha with h2 | h2
              · rw [hpv a h2 p hp hcon2] at hvp
                cases hvp
              · exact hacyc p (Relation.TransGen.head' hcon2 (hreachp a h2))
            obtain ⟨vc, Lc, heqc, hmonoc, _, _, hinvc⟩ :=
              visit_fold_perm g n (f + 1) [p] v L G hfuel
                (fun x hx => by rw [List.mem_singleton] at hx; subst hx; exact hp)
                hinv
            have heqc2 : visit g n (f + 1) (v, L) p = (vc, Lc) := heqc
            rw [hstep, heqa] at heqc2
            have hvc : vc = va := congrArg Prod.fst heqc2.symm
            have hLc : Lc = La ++ [p] := congrArg Prod.snd heqc2.symm
            rw [hvc, hLc] at hinvc
            have hfuel3 : unvisited n va ≤ f + 1 :=
              le_trans (unvisited_mono n v va hmono2) hfuel
            obtain ⟨vb, Lb, Db, heqb, hDb, hreachb, hpvc, hnbc⟩ :=
              ihp va (La ++ [p]) G hfuel3
                (fun x hx => hps x (List.mem_cons_of_mem p hx)) hinvc hpvb hnbb
            refine ⟨vb, Lb, Da ++ [p] ++ Db, heqb, by rw [hDb, hDa]; simp, ?_,
              hpvc, hnbc⟩
            intro x hx
            rcases List.mem_append.mp hx with h2 | h2
            · rcases List.mem_append.mp h2 with h3 | h3
              · exact ⟨p, List.mem_cons_self p ps2, hreachp x h3⟩
              · rw [List.mem_singleton] at h3
                subst h3
                exact ⟨x, List.mem_cons_self x ps2, Relation.ReflTransGen.refl⟩
            · obtain ⟨q, hq1, hq2⟩ := hreachb x h2
              exact ⟨q, List.mem_cons_of_mem p hq1, hq2⟩

theorem topsort_perm_all (n : Nat) (g : Nat → Nat → Bool) :
    (topsort n g).Perm (List.range n) := by
  obtain ⟨v2, L2, heq, _, hall, _, hinv2⟩ :=
    visit_fold_perm g n n (List.range n) (fun _ => false) [] []
      (unvisited_le n _) (fun x hx => List.mem_range.mp hx)
      ⟨List.nodup_nil, by simp, by simp, by simp⟩
  obtain ⟨hnd, hiff, hbnd, _⟩ := hinv2
  have htop : topsort n g = L2 := by rw [topsort, heq]
  rw [htop]
  rw [List.perm_ext_iff_of_nodup hnd (List.nodup_range n)]
  intro a
  constructor
  · intro ha
    exact List.mem_range.mpr (hbnd a ha)
  · intro ha
    rcases (hiff a).mp (hall a ha) with h | h
    · exact h
    · cases h

theorem topsort_noback (n : Nat) (g : Nat → Nat → Bool) (hacyc : Acyclic g) :
    NoBackEdge g (topsort n g) := by
  obtain ⟨v2, L2, D, heq, _, _, _, hnb⟩ :=
    visit_fold_order g n hacyc n (List.range n) (fun _ => false) [] []
      (unvisited_le n _) (fun x hx => List.mem_range.mp hx)
      ⟨List.nodup_nil, by simp, by simp, by simp⟩
      (fun a ha => by cases ha) List.Pairwise.nil
  have htop : topsort n g = L2 := by rw [topsort, heq]
  rw [htop]
  exact hnb

/-- The 2-cycle matrix of claim C8: `order[0][1] = order[1][0] = true`. -/
def cyc2order : Nat → Nat → Bool := fun i j =>
  (i == 0 && j == 1) || (i == 1 && j == 0)

/-- Claim C8 holds: `topsort` always terminates (it is total here, with fuel
that provably never runs out) and returns a permutation of 0..n-1 for every
boolean matrix; when the matrix is acyclic, every true entry `order[i][j]`
puts i before j in the output; and on the 2-cycle matrix it returns the
permutation [1, 0] of all indices without error. -/
theorem C8_topsort :
    (∀ (n : Nat) (g : Nat → Nat → Bool), (topsort n g).Perm (List.range n)) ∧
      (∀ (n : Nat) (g : Nat → Nat → Bool), Acyclic g → ∀ i j, i < n → j < n →
        g i j = true → (topsort n g).indexOf i < (topsort n g).indexOf j) ∧
      topsort 2 cyc2order = [1, 0] := by
  refine ⟨topsort_perm_all, ?_, by decide⟩
  intro n g hacyc i j hi hj hg
  have hperm := topsort_perm_all n g
  have hnb := topsort_noback n g hacyc
  have hne : i ≠ j := by
    intro hc
    subst hc
    exact hacyc i (Relation.TransGen.single hg)
  have hiL : i ∈ topsort n g := hperm.mem_iff.mpr (List.mem_range.mpr hi)
  have hjL : j ∈ topsort n g := hperm.mem_iff.mpr (List.mem_range.mpr hj)
  have hidx_i : (topsort n g).indexOf i < (topsort n g).length :=
    List.indexOf_lt_length.mpr hiL
  have hidx_j : (topsort n g).indexOf j < (topsort n g).length :=
    List.indexOf_lt_length.mpr hjL
  have hget_i : (topsort n g).get ⟨(topsort n g).indexOf i, hidx_i⟩ = i :=
    List.indexOf_get hidx_i
  have hget_j : (topsort n g).get ⟨(topsort n g).indexOf j, hidx_j⟩ = j :=
    List.indexOf_get hidx_j
  by_contra hcon
  push_neg at hcon
  have hlt : (topsort n g).indexOf j < (topsort n g).indexOf i := by
    rcases lt_or_eq_of_le hcon with h | h
    · exact h
    · exfalso
      apply hne
      have h2 := hget_j
      rw [← hget_i, ← h2]
      congr 1
      exact Fin.ext h.symm
  have hpair := List.pairwise_iff_get.mp hnb
    ⟨(topsort n g).indexOf j, hidx_j⟩ ⟨(topsort n g).indexOf i, hidx_i⟩ hlt
  rw [hget_i, hget_j, hg] at hpair
  cases hpair

/-- A small acyclic matrix: only entry (0, 1) is true. -/
def g01 : Nat → Nat → Bool := fun i j => i == 0 && j == 1

theorem g01_step (a b : Nat) (h : g01 a b = true) : a = 0 ∧ b = 1 := by
  simpa [g01] using h

theorem g01_acyclic : Acyclic g01 := by
  intro x hx
  have hchain : ∀ a b, Relation.TransGen (fun a b => g01 a b = true) a b →
      a = 0 ∧ b = 1 := by
    intro a b h
    induction h with
    | single h1 => exact g01_step _ _ h1
    | tail h1 h2 ih =>
        obtain ⟨ha, hb⟩ := ih
        subst hb
        obtain ⟨h3, _⟩ := g01_step _ _ h2
        omega
  obtain ⟨h0, h1⟩ := hchain x x hx
  omega

/-- Witness for claim C8's acyclic part at a concrete acyclic matrix. -/
theorem C8_topsort_witness :
    (topsort 2 g01).indexOf 0 < (topsort 2 g01).indexOf 1 :=
  C8_topsort.2.1 2 g01 g01_acyclic 0 1 (by decide) (by decide) (by decide)

/-- Python exceptions surfacing in this core, as `Except` errors. -/
inductive PyError where
  | valueError
  | assertionError
deriving DecidableEq

/-- Python `max(l)` on a list of naturals: raises ValueError on an empty
list (`max() arg is an empty sequence`). -/
def pyMax (l : List Nat) : Except PyError Nat :=
  match l with
  | [] => .error .valueError
  | x :: xs => .ok (xs.foldl max x)

/-- Embeds `x_overlaps` (ocrinf.py line 453). -/
abbrev x_overlaps (u v : BBox) : Prop := u.l < v.r ∧ u.r > v.l

/-- Embeds `above` (ocrinf.py line 456). -/
abbrev above (u v : BBox) : Prop := u.b < v.t

/-- Embeds `left_of` (ocrinf.py line 459). -/
abbrev left_of (u v : BBox) : Prop := u.r < v.l

/-- Embeds `separates` (ocrinf.py lines 462-469): true when `w` is neither
entirely above nor entirely below the pair and horizontally spans the gap. -/
abbrev separates (w u v : BBox) : Prop :=
  ¬(w.b < min u.t v.t) ∧ ¬(w.t > max u.b v.b) ∧ w.l < u.r ∧ w.r > v.l

/-- Embeds `reading_order` (ocrinf.py lines 446-496) on the list of line
boxes, as the n×n boolean matrix `order[i, j]` it fills (the `highlight`
plotting code is visualization and out of scope): when the horizontal
extents overlap, i precedes j when i is above j; otherwise, when no third
line separates them, i precedes j when i is left of j. -/
def reading_order (lines : List BBox) : Nat → Nat → Bool := fun i j =>
  let u := lines.getD i ⟨0, 0, 0, 0⟩
  let v := lines.getD j ⟨0, 0, 0, 0⟩
  if x_overlaps u v then decide (above u v)
  else if (lines.filter fun w => decide (separates w u v)) = [] then
    decide (left_of u v)
  else false

/-- A line of the page result: its member word boxes (left-to-right) and the
bounding rectangle of its members. -/
structure LineRec where
  words : List BBox
  box : BBox
deriving DecidableEq

/-- Embeds the line-id lookup of `assign_bboxes_to_lines` (ocrinf.py lines
589-593): `linemap[int(yc), int(xc)]` at the box center.  The line map is a
function of the (possibly negative, as Python indexing allows) integer
indices. -/
def assign_lineno (linemap : Int → Int → Nat) (b : BBox) : Nat :=
  linemap (pyTrunc (bbox_center b).2) (pyTrunc (bbox_center b).1)

def insertByL (a : BBox) : List BBox → List BBox
  | [] => [a]
  | b :: bs => if a.l ≤ b.l then a :: b :: bs else b :: insertByL a bs

/-- Python's stable `sorted(..., key=lambda b: b["l"])` (ocrinf.py line
683), as a structural insertion sort (stable for equal keys). -/
def sortByLeft (l : List BBox) : List BBox := l.foldr insertByL []

/-- Embeds the 7-channel line-assembly tail of `PageRecognizer.recognize`
(ocrinf.py lines 676-690): assign each box a line id from the line map,
`nlines = max(linenos + [0]) + 1`, bucket the boxes by line id, sort each
bucket by left edge, keep nonempty buckets as lines with their enclosing
rectangle, compute the reading order and its topological sort, then rebuild
`new_lines = [[] for i in range(max(line_index) + 1)]` — where `max` of an
empty `line_index` raises ValueError — and fill it by `line_index`. -/
def seven_channel_lines (bboxes : List BBox) (linemap : Int → Int → Nat) :
    Except PyError (List LineRec) :=
  let withLn := bboxes.map fun b => (b, assign_lineno linemap b)
  let nlines := (withLn.map Prod.snd).foldr max 0 + 1
  let raw_lines := (List.range nlines).map fun i =>
    sortByLeft ((withLn.filter fun bl => bl.2 == i).map Prod.fst)
  let lines := (raw_lines.filter fun ws => !ws.isEmpty).map fun ws =>
    LineRec.mk ws (bbox_all ws)
  let line_index := topsort lines.length (reading_order (lines.map LineRec.box))
  match pyMax line_index with
  | .error e => .error e
  | .ok m =>
      .ok ((List.range (m + 1)).map fun i =>
        if i < line_index.length then
          lines.getD (line_index.getD i 0) (LineRec.mk [] ⟨0, 0, 0, 0⟩)
        else LineRec.mk [] ⟨0, 0, 0, 0⟩)

/-- Embeds the 4-channel tail of `PageRecognizer.recognize` (ocrinf.py line
692): one implicit line holding all boxes, or no line at all when there are
no boxes; this path raises nothing. -/
def four_channel_lines (bboxes : List BBox) : List LineRec :=
  if bboxes.length > 0 then [LineRec.mk bboxes (bbox_all bboxes)] else []

/-- Claim C2 is wrong about the code (the code is the slip): with zero word
boxes after filtering, the 4-channel path returns the empty result, but the
7-channel path reaches `max(self.line_index) + 1` with `line_index = []` and
raises ValueError instead of returning an empty result. -/
theorem C2_zero_boxes :
    (∀ linemap : Int → Int → Nat,
      seven_channel_lines [] linemap = .error PyError.valueError) ∧
      four_channel_lines [] = [] ∧ pyMax [] = .error PyError.valueError :=
  ⟨fun _ => rfl, rfl, rfl⟩

/-- Embeds `probs.T` on a rectangular d×l array given as a list of rows. -/
def transposeM (m : QImage) : QImage :=
  (List.range (npWidth m)).map fun c => m.map fun row => row.getD c 0

/-- Run labeling of a 1-D boolean mask, as `ndi.label` does on contiguous
runs of `True` along the time axis: labels 1, 2, ... in order; `used` is the
number of runs opened so far and `prev` whether the previous entry was
inside a run. -/
def runLabelAux : List Bool → Nat → Bool → List Nat
  | [], _, _ => []
  | b :: bs, used, prev =>
      if b then
        (if prev then used else used + 1) ::
          runLabelAux bs (if prev then used else used + 1) true
      else 0 :: runLabelAux bs used false

def runLabel (bs : List Bool) : List Nat := runLabelAux bs 0 false

/-- Value of the smoothed matrix at a (time, symbol) cell. -/
def valAt (p2 : QImage) (tc : Nat × Nat) : ℚ := (p2.getD tc.1 []).getD tc.2 0

/-- Cells of the mask region of run `k`: its timesteps crossed with the
non-blank symbol columns 1..d-1 (`mask[:, 0] = 0` zeroes the blank column),
in raster order. -/
def regionCells (p2 : QImage) (labels : List Nat) (k : Nat) :
    List (Nat × Nat) :=
  (List.range p2.length).bind fun t =>
    if labels.getD t 0 = k then
      (List.range' 1 ((p2.getD t []).length - 1)).map fun c => (t, c)
    else []

/-- Embeds `ndi.maximum_position` on one region: the first cell (in raster
order) holding the maximal value.  scipy yields a NaN placeholder for an
empty region (which arises only when there is no non-blank symbol column);
that placeholder is modelled as (0, 0). -/
def argmaxCell (p2 : QImage) : List (Nat × Nat) → Nat × Nat
  | [] => (0, 0)
  | c :: cs => cs.foldl (fun best d => if valAt p2 best < valAt p2 d then d else best) c

def insertLex (a : Nat × Nat) : List (Nat × Nat) → List (Nat × Nat)
  | [] => [a]
  | b :: bs =>
      if a.1 < b.1 ∨ (a.1 = b.1 ∧ a.2 ≤ b.2) then a :: b :: bs
      else b :: insertLex a bs

/-- Python `sorted` on a list of (row, column) pairs: lexicographic, stable
(structural insertion sort). -/
def sortPairs (l : List (Nat × Nat)) : List (Nat × Nat) := l.foldr insertLex []

/-- Embeds `ctc_decode` (ocrinf.py lines 52-72, with the default
`full=False`): transpose the d×l input to time-major form, assert every
per-timestep row sums to 1 within 1e-4 (AssertionError otherwise), smooth,
renormalize rows, label the contiguous runs where the blank probability
(column 0) is below the 0.7 threshold, pick in each run the position of the
maximal non-blank probability, and return the symbol indices in time order.
The Gaussian time smoothing `ndi.gaussian_filter(probs, (sigma, 0))` is a
floating-point library routine; it is modelled as a parameter `smooth`, an
arbitrary row-count-preserving transformation, which only strengthens every
statement proved for all such `smooth`. -/
def ctc_decode (smooth : QImage → QImage) (probs : QImage) :
    Except PyError (List Nat) :=
  let p := transposeM probs
  if ¬(p.all fun row => decide (|row.sum - 1| < 1/10000)) then
    .error .assertionError
  else
    let p2 := (smooth p).map fun row => row.map fun q => q / row.sum
    let labels := runLabel (p2.map fun row => decide (row.getD 0 0 < 7/10))
    let nmax := labels.foldr max 0
    let maxima := (List.range' 1 nmax).map fun k =>
      argmaxCell p2 (regionCells p2 labels k)
    .ok ((sortPairs maxima).map Prod.snd)

theorem runLabelAux_max_le (bs : List Bool) :
    ∀ (used : Nat) (prev : Bool),
      (runLabelAux bs used prev).foldr max 0 ≤ used + bs.length := by
  induction bs with
  | nil => intro used prev; exact Nat.zero_le used
  | cons b bs2 ih =>
      intro used prev
      unfold runLabelAux
      by_cases hb : b = true
      · rw [if_pos hb]
        rw [List.foldr_cons]
        have h1 := ih (if prev then used else used + 1) true
        have h2 : (if prev then used else used + 1) ≤ used + 1 := by
          by_cases hp : prev = true <;> simp [hp]
        simp only [List.length_cons]
        omega
      · rw [if_neg hb, List.foldr_cons]
        have h1 := ih used false
        simp only [List.length_cons]
        omega

theorem insertLex_length (a : Nat × Nat) (l : List (Nat × Nat)) :
    (insertLex a l).length = l.length + 1 := by
  induction l with
  | nil => rfl
  | cons b bs ih =>
      unfold insertLex
      split
      · rfl
      · simp only [List.length_cons, ih]

theorem sortPairs_length (l : List (Nat × Nat)) :
    (sortPairs l).length = l.length := by
  induction l with
  | nil => rfl
  | cons a l2 ih =>
      unfold sortPairs at ih ⊢
      rw [List.foldr_cons, insertLex_length, ih]
      rfl

instance exceptDecEq {e a : Type} [DecidableEq e] [DecidableEq a] :
    DecidableEq (Except e a) := fun x y =>
  match x, y with
  | .error e1, .error e2 =>
      if h : e1 = e2 then .isTrue (by rw [h])
      else .isFalse (by intro hc; cases hc; exact h rfl)
  | .ok x1, .ok y1 =>
      if h : x1 = y1 then .isTrue (by rw [h])
      else .isFalse (by intro hc; cases hc; exact h rfl)
  | .error _, .ok _ => .isFalse (by intro hc; cases hc)
  | .ok _, .error _ => .isFalse (by intro hc; cases hc)

/-- Claim C9 holds: `ctc_decode` fails its normalization contract exactly
when some per-timestep row of the (transposed) input deviates from summing
to 1 by at least 1e-4, and on a properly normalized input it returns
normally with a sequence of at most one symbol per timestep — for every
row-count-preserving smoothing. -/
theorem C9_ctc_decode (smooth : QImage → QImage)
    (hsm : ∀ m : QImage, (smooth m).length = m.length) (probs : QImage) :
    ((∃ row ∈ transposeM probs, ¬(|row.sum - 1| < 1/10000)) ↔
      ctc_decode smooth probs = .error PyError.assertionError) ∧
      ∀ out, ctc_decode smooth probs = .ok out →
        out.length ≤ (transposeM probs).length := by
  have hcond : (¬((transposeM probs).all fun row =>
      decide (|row.sum - 1| < 1/10000)) = true) ↔
      ∃ row ∈ transposeM probs, ¬(|row.sum - 1| < 1/10000) := by
    rw [List.all_eq_true]
    push_neg
    constructor
    · rintro ⟨row, hrow, hdec⟩
      exact ⟨row, hrow, by simpa using hdec⟩
    · rintro ⟨row, hrow, hdec⟩
      exact ⟨row, hrow, by simpa using hdec⟩
  by_cases hc : ((transposeM probs).all fun row =>
      decide (|row.sum - 1| < 1/10000)) = true
  · have herr : ctc_decode smooth probs ≠ .error PyError.assertionError := by
      unfold ctc_decode
      rw [if_neg (by simpa using hc)]
      intro h
      cases h
    constructor
    · constructor
      · intro h
        exact absurd h (by rw [← hcond]; simpa using hc)
      · intro h
        exact absurd h herr
    · intro out hout
      unfold ctc_decode at hout
      rw [if_neg (by simpa using hc)] at hout
      have hout2 : out = (sortPairs ((List.range' 1
          ((runLabel (((smooth (transposeM probs)).map fun row =>
              row.map fun q => q / row.sum).map fun row =>
                decide (row.getD 0 0 < 7/10))).foldr max 0)).map fun k =>
            argmaxCell ((smooth (transposeM probs)).map fun row =>
              row.map fun q => q / row.sum)
              (regionCells ((smooth (transposeM probs)).map fun row =>
                row.map fun q => q / row.sum)
                (runLabel (((smooth (transposeM probs)).map fun row =>
                  row.map fun q => q / row.sum).map fun row =>
                    decide (row.getD 0 0 < 7/10))) k))).map Prod.snd := by
        cases hout
        rfl
      rw [hout2, List.length_map, sortPairs_length, List.length_map,
        List.length_range']
      calc (runLabel (((smooth (transposeM probs)).map fun row =>
              row.map fun q => q / row.sum).map fun row =>
                decide (row.getD 0 0 < 7/10))).foldr max 0
          ≤ 0 + (((smooth (transposeM probs)).map fun row =>
              row.map fun q => q / row.sum).map fun row =>
                decide (row.getD 0 0 < 7/10)).length :=
            runLabelAux_max_le _ 0 false
        _ = (transposeM probs).length := by
            rw [Nat.zero_add, List.length_map, List.length_map, hsm]
  · have herr : ctc_decode smooth probs = .error PyError.assertionError := by
      unfold ctc_decode
      rw [if_pos (by simpa using hc)]
    constructor
    · exact ⟨fun _ => herr, fun _ => hcond.mp (by simpa using hc)⟩
    · intro out hout
      rw [herr] at hout
      cases hout

/-- Witness for claim C9 at a concrete, properly normalized 2-symbol,
2-timestep input with identity smoothing: decoding succeeds with the single
symbol 1 and the length bound holds. -/
theorem C9_ctc_decode_witness :
    ctc_decode id [[8/10, 1/10], [2/10, 9/10]] = Except.ok [1] ∧
      ([1] : List Nat).length ≤
        (transposeM [[8/10, 1/10], [2/10, 9/10]]).length :=
  ⟨by decide,
    (C9_ctc_decode id (fun m => rfl) [[8/10, 1/10], [2/10, 9/10]]).2 [1]
      (by decide)⟩

end Ocrinf
